import Mathlib

/-!
Verification development for the Monte Carlo betting core of the
`going_against_the_odds` notebook (repository SportsbettingMedium).

The embedded functions are `select_random_row`, `select_random_col` and
`monte_carlo_sum` (notebook cell 56), the trajectory loop and quantile
extraction (cell 61), and the payout-matrix construction (cell 53).

Randomness is modelled by an abstract generator `PRNG` acting on a global
state of type `Nat`: `seedFn` reinitialises the state from a seed (this is
`np.random.seed`), `outFn` reads a raw draw from the current state and
`stepFn` advances the state.  Every embedded function threads this global
state explicitly, so statements about the influence of the prior stream
state are faithful to the shared-generator behaviour of the source.

Failures of the underlying numpy primitives are modelled with
`Except Unit`: the error payload is `Unit` because the source raises
untyped `ValueError`s, with no error taxonomy of its own.  The sampler
raises only when at least one draw is actually requested from an empty
population (zero draws from an empty population return an empty array
without error), and `np.empty(iteration)` raises for a negative iteration
count before the loop runs, so `monte_carlo_sum` takes its iteration count
as an `Int` and errors on negative values.  Out-of-range column reads are
not checked by the source (numba `nopython` indexing), so the embedding
reads a default value there instead of failing.

Payout cells are `ℚ` for the numeric claims; the type `FVal` adds the
IEEE-style non-finite values (`nan`, `inf`, `ninf`) with absorbing
addition, which is what the claims about non-finite cells need.
-/

namespace Sportsbetting

/-- Abstract pseudo-random generator over a global state of type `Nat`.
`seedFn` models `np.random.seed`, `outFn` reads the raw draw at the current
state, `stepFn` advances the state by one draw. -/
structure PRNG where
  seedFn : Nat → Nat
  outFn : Nat → Nat
  stepFn : Nat → Nat

/-- `draws g bound n σ` makes `n` successive uniform draws in `[0, bound)`
from the global stream, returning the drawn values and the new stream
state.  This models `np.random.choice(bound, n, replace=True)`: each draw
is independent of the others, so repeated values are possible. -/
def draws (g : PRNG) (bound : Nat) : Nat → Nat → List Nat × Nat
  | 0, σ => ([], σ)
  | n + 1, σ =>
    let v := g.outFn σ % bound
    let rest := draws g bound n (g.stepFn σ)
    (v :: rest.1, rest.2)

/-- Embedding of `select_random_row` (cell 56): draws `num_rows` row
indices with replacement from `[0, R)` and returns the corresponding rows.
The numpy sampler raises an untyped error only when at least one draw is
requested from an empty population; zero draws return an empty batch
without error. -/
def select_random_row {α : Type} (g : PRNG) (data : List (List α))
    (num_rows : Nat) (σ : Nat) : Except Unit (List (List α) × Nat) :=
  if data.length = 0 ∧ num_rows ≠ 0 then .error () else
    let d := draws g data.length num_rows σ
    .ok (d.1.map (fun i => data.getD i []), d.2)

/-- Embedding of `select_random_col` (cell 56): for each row of `data`,
picks one column uniformly from the array `cols` and reads that cell.
`np.random.choice(cols, N_rows)` raises an untyped error only when `cols`
is empty and at least one draw is requested (a zero-row batch makes no
draw and returns an empty vector); an out-of-range column index in `cols`
is NOT checked by the source (unchecked numba indexing), modelled by a
default read. -/
def select_random_col {α : Type} [Zero α] (g : PRNG) (data : List (List α))
    (cols : List Nat) (σ : Nat) : Except Unit (List α × Nat) :=
  if cols.length = 0 ∧ data.length ≠ 0 then .error () else
    let d := draws g cols.length data.length σ
    .ok ((data.zip d.1).map (fun rc => rc.1.getD (cols.getD rc.2 0) 0), d.2)

/-- Left-to-right sum of a list, the embedding of `ndarray.sum()`. -/
def fsum {α : Type} [Zero α] [Add α] (l : List α) : α :=
  l.foldl (fun a b => a + b) 0

/-- The iteration loop of `monte_carlo_sum`: each of the remaining
iterations draws a row batch, selects one enabled column per drawn row,
sums the selected payouts into one scalar profit, and stores it in order. -/
def mcLoop {α : Type} [Zero α] [Add α] (g : PRNG) (data : List (List α))
    (batch : Nat) (cols : List Nat) : Nat → Nat → Except Unit (List α × Nat)
  | 0, σ => .ok ([], σ)
  | i + 1, σ =>
    match select_random_row g data batch σ with
    | .error e => .error e
    | .ok rs =>
      match select_random_col g rs.1 cols rs.2 with
      | .error e => .error e
      | .ok es =>
        match mcLoop g data batch cols i es.2 with
        | .error e => .error e
        | .ok rest => .ok (fsum es.1 :: rest.1, rest.2)

/-- Embedding of `monte_carlo_sum` (cell 56).  The source takes no seed
argument: its first statement is `np.random.seed(12345)`, which overwrites
the incoming global stream state `σ` before any draw is made.  Next,
`profit_arr = np.empty(iteration)` raises an untyped error for a negative
iteration count, before the loop runs; hence `iteration : Int` with an
error branch on negative values. -/
def monte_carlo_sum {α : Type} [Zero α] [Add α] (g : PRNG)
    (data : List (List α)) (iteration : Int) (batch : Nat)
    (cols : List Nat) (σ : Nat) : Except Unit (List α × Nat) :=
  if iteration < 0 then .error () else
    mcLoop g data batch cols iteration.toNat (g.seedFn 12345)

/-- Running inclusive cumulative sums starting from accumulator `acc`. -/
def cumsumFrom {α : Type} [Add α] (acc : α) : List α → List α
  | [] => []
  | x :: xs => (acc + x) :: cumsumFrom (acc + x) xs

/-- Embedding of `np.cumsum` on a vector: inclusive running sums. -/
def cumsum {α : Type} [Zero α] [Add α] (l : List α) : List α :=
  cumsumFrom 0 l

/-- One run of the trajectory loop body (cell 61):
`initial_balance + np.cumsum(select_random_col(select_random_row(arr, n), [0,1,2]))`. -/
def timeseries_row {α : Type} [Zero α] [Add α] (g : PRNG)
    (data : List (List α)) (numBets : Nat) (initB : α) (σ : Nat) :
    Except Unit (List α × Nat) :=
  match select_random_row g data numBets σ with
  | .error e => .error e
  | .ok rs =>
    match select_random_col g rs.1 [0, 1, 2] rs.2 with
    | .error e => .error e
    | .ok es => .ok ((cumsum es.1).map (fun x => initB + x), es.2)

/-- Embedding of the trajectory loop of cell 61: `iteration` runs, each
producing one cumulative-balance row; no reseeding happens here, the
global stream is simply consumed run after run. -/
def timeseries_arr {α : Type} [Zero α] [Add α] (g : PRNG)
    (data : List (List α)) (numBets : Nat) (initB : α) :
    Nat → Nat → Except Unit (List (List α) × Nat)
  | 0, σ => .ok ([], σ)
  | i + 1, σ =>
    match timeseries_row g data numBets initB σ with
    | .error e => .error e
    | .ok row =>
      match timeseries_arr g data numBets initB i row.2 with
      | .error e => .error e
      | .ok rest => .ok (row.1 :: rest.1, rest.2)

/-- Payout values extended with the IEEE non-finite values.  Addition
follows IEEE semantics on the non-finite part: `nan` absorbs, opposite
infinities give `nan`, an infinity absorbs finite values. -/
inductive FVal where
  | fin : ℚ → FVal
  | nan : FVal
  | inf : FVal
  | ninf : FVal
deriving DecidableEq

/-- IEEE-style addition on `FVal`. -/
def FVal.add : FVal → FVal → FVal
  | .nan, _ => .nan
  | _, .nan => .nan
  | .inf, .ninf => .nan
  | .ninf, .inf => .nan
  | .inf, _ => .inf
  | _, .inf => .inf
  | .ninf, _ => .ninf
  | _, .ninf => .ninf
  | .fin a, .fin b => .fin (a + b)

instance : Add FVal := ⟨FVal.add⟩

instance : Zero FVal := ⟨FVal.fin 0⟩

/-- Ascending sort, the order statistics of a sample. -/
def sortAsc (l : List ℚ) : List ℚ :=
  l.insertionSort (fun a b => a ≤ b)

/-- Linear interpolation of a sorted sample `s` at fractional rank `h`
(coordinates `0, 1, ..., s.length - 1`): with `i = ⌊h⌋`, the value is
`s[i] + (h - i) * (s[i+1] - s[i])`.  This is the `linear` interpolation
rule that `np.percentile` applies by default. -/
def interpAt (s : List ℚ) (h : ℚ) : ℚ :=
  let i := (Int.floor h).toNat
  let lo := s.getD i 0
  let hi := s.getD (i + 1) lo
  lo + (h - (i : ℚ)) * (hi - lo)

/-- Embedding of `np.percentile(l, p)` with the default `linear`
interpolation: sort the sample and interpolate at rank `p * (n - 1) / 100`. -/
def percentile (l : List ℚ) (p : ℚ) : ℚ :=
  interpAt (sortAsc l) (p * ((l.length : ℚ) - 1) / 100)

/-- Embedding of `np.percentile(mat, ps, axis=0)` (cell 61): for each
requested percentile, reduce every time-step column of the trajectory
matrix independently. -/
def quantiles (mat : List (List ℚ)) (ps : List ℚ) : List (List ℚ) :=
  ps.map (fun p => mat.transpose.map (fun col => percentile col p))

/-- Nearest-rank percentile (the alternative convention named by the
spec, written here only for comparison with `percentile`): the value at
1-indexed rank `⌈p * n / 100⌉` of the sorted sample. -/
def nearestRank (l : List ℚ) (p : ℚ) : ℚ :=
  (sortAsc l).getD ((Int.ceil (p / 100 * (l.length : ℚ))).toNat - 1) 0

/-- One source row for the payout-matrix construction of cell 53: the
match winner code and the three closing odds of the 1x2 market. -/
structure MatchRow where
  winner : String
  odds1 : ℚ
  oddsX : ℚ
  odds2 : ℚ

/-- Embedding of the `betwin` column construction (cell 53): every
outcome column is preset to `-stake`, then the column whose outcome code
equals the match winner code is overwritten with `stake * (odds - 1)`. -/
def mkPayoutRow (stake : ℚ) (m : MatchRow) : List ℚ :=
  [if m.winner = "1" then stake * (m.odds1 - 1) else -stake,
   if m.winner = "X" then stake * (m.oddsX - 1) else -stake,
   if m.winner = "2" then stake * (m.odds2 - 1) else -stake]

/-- The payout matrix `arr_mc` (cells 53 and 54): one payout row per match. -/
def mkPayoutMatrix (stake : ℚ) (ms : List MatchRow) : List (List ℚ) :=
  ms.map (mkPayoutRow stake)

/-- A concrete generator used to evaluate the embedded functions on
explicit inputs. -/
def natPRNG : PRNG :=
  { seedFn := fun s => s, outFn := fun σ => σ, stepFn := fun σ => σ + 1 }

theorem draws_length (g : PRNG) (bound : Nat) :
    ∀ (n σ : Nat), (draws g bound n σ).1.length = n := by
  intro n
  induction n with
  | zero => intro σ; rfl
  | succ n ih => intro σ; simp [draws, ih]

theorem draws_lt (g : PRNG) (bound : Nat) (hb : 0 < bound) :
    ∀ (n σ : Nat), ∀ v ∈ (draws g bound n σ).1, v < bound := by
  intro n
  induction n with
  | zero => intro σ v hv; simp [draws] at hv
  | succ n ih =>
    intro σ v hv
    simp only [draws, List.mem_cons] at hv
    rcases hv with hv | hv
    · simpa [hv] using Nat.mod_lt _ hb
    · exact ih _ v hv

theorem draws_one (g : PRNG) :
    ∀ (n σ : Nat), (draws g 1 n σ).1 = List.replicate n 0 := by
  intro n
  induction n with
  | zero => intro σ; rfl
  | succ n ih => intro σ; simp [draws, ih, List.replicate_succ, Nat.mod_one]

theorem getD_mem {α : Type} :
    ∀ (l : List α) (i : Nat) (d : α), i < l.length → l.getD i d ∈ l := by
  intro l
  induction l with
  | nil => intro i d h; simp at h
  | cons x xs ih =>
    intro i d h
    cases i with
    | zero => simp
    | succ i =>
      simp only [List.getD_cons_succ]
      exact List.mem_cons_of_mem _ (ih i d (by simpa using h))

/-- For a nonnegative iteration count the allocation succeeds and
`monte_carlo_sum` is the iteration loop started at the hard-coded seed
state. -/
theorem monte_carlo_sum_natCast {α : Type} [Zero α] [Add α] (g : PRNG)
    (data : List (List α)) (I : Nat) (B : Nat) (cols : List Nat) (σ : Nat) :
    monte_carlo_sum g data (I : Int) B cols σ =
      mcLoop g data B cols I (g.seedFn 12345) := by
  unfold monte_carlo_sum
  rw [if_neg (by omega)]
  norm_num

theorem select_random_row_eq {α : Type} (g : PRNG) (data : List (List α))
    (n σ : Nat) (hd : data ≠ []) :
    select_random_row g data n σ =
      .ok ((draws g data.length n σ).1.map (fun i => data.getD i []),
           (draws g data.length n σ).2) := by
  simp [select_random_row, List.length_eq_zero, hd]

theorem select_random_col_eq {α : Type} [Zero α] (g : PRNG)
    (data : List (List α)) (cols : List Nat) (σ : Nat) (hc : cols ≠ []) :
    select_random_col g data cols σ =
      .ok ((data.zip (draws g cols.length data.length σ).1).map
             (fun rc => rc.1.getD (cols.getD rc.2 0) 0),
           (draws g cols.length data.length σ).2) := by
  simp [select_random_col, List.length_eq_zero, hc]

theorem select_random_col_empty_rows {α : Type} [Zero α] (g : PRNG)
    (cols : List Nat) (σ : Nat) :
    select_random_col g ([] : List (List α)) cols σ = .ok ([], σ) := by
  simp [select_random_col, draws]

theorem select_random_row_spec {α : Type} (g : PRNG) (data : List (List α))
    (n σ : Nat) (hd : data ≠ []) :
    ∃ rows σ', select_random_row g data n σ = .ok (rows, σ') ∧
      rows.length = n ∧ ∀ r ∈ rows, r ∈ data := by
  refine ⟨_, _, select_random_row_eq g data n σ hd, ?_, ?_⟩
  · simp [draws_length]
  · intro r hr
    simp only [List.mem_map] at hr
    obtain ⟨i, hi, rfl⟩ := hr
    have hlen : 0 < data.length := List.length_pos.mpr hd
    exact getD_mem data i [] (draws_lt g data.length hlen n σ i hi)

theorem select_random_col_spec {α : Type} [Zero α] (g : PRNG)
    (data : List (List α)) (cols : List Nat) (σ : Nat) (hc : cols ≠ []) :
    ∃ vec σ', select_random_col g data cols σ = .ok (vec, σ') ∧
      vec.length = data.length := by
  refine ⟨_, _, select_random_col_eq g data cols σ hc, ?_⟩
  simp [draws_length]

theorem mcLoop_spec {α : Type} [Zero α] [Add α] (g : PRNG)
    (data : List (List α)) (B : Nat) (cols : List Nat)
    (hd : data ≠ []) (hc : cols ≠ []) :
    ∀ (I σ : Nat), ∃ res σ', mcLoop g data B cols I σ = .ok (res, σ') ∧
      res.length = I ∧
      ∀ x ∈ res, ∃ σa rows σb vec σc,
        select_random_row g data B σa = .ok (rows, σb) ∧
        rows.length = B ∧ (∀ r ∈ rows, r ∈ data) ∧
        select_random_col g rows cols σb = .ok (vec, σc) ∧
        vec.length = B ∧ x = fsum vec := by
  intro I
  induction I with
  | zero => intro σ; exact ⟨[], σ, rfl, rfl, by simp⟩
  | succ I ih =>
    intro σ
    obtain ⟨rows, σb, hrow, hlen, hmem⟩ := select_random_row_spec g data B σ hd
    obtain ⟨vec, σc, hcol, hveclen⟩ := select_random_col_spec g rows cols σb hc
    obtain ⟨res, σ', hrec, hreslen, hres⟩ := ih σc
    refine ⟨fsum vec :: res, σ', ?_, by simp [hreslen], ?_⟩
    · simp only [mcLoop, hrow, hcol, hrec]
    · intro x hx
      rcases List.mem_cons.mp hx with rfl | hx
      · exact ⟨σ, rows, σb, vec, σc, hrow, hlen, hmem, hcol,
          by rw [hveclen, hlen], rfl⟩
      · exact hres x hx

theorem FVal.add_to_nan : ∀ x : FVal, x + FVal.nan = FVal.nan := by
  intro x
  cases x <;> rfl

theorem FVal.nan_add_any : ∀ x : FVal, FVal.nan + x = FVal.nan := by
  intro x
  cases x <;> rfl

theorem foldl_add_nan :
    ∀ (l : List FVal) (acc : FVal), acc = FVal.nan ∨ FVal.nan ∈ l →
      l.foldl (fun a b => a + b) acc = FVal.nan := by
  intro l
  induction l with
  | nil =>
    intro acc h
    rcases h with h | h
    · simpa using h
    · simp at h
  | cons x xs ih =>
    intro acc h
    simp only [List.foldl_cons]
    rcases h with h | h
    · exact ih _ (Or.inl (by simp [h, FVal.nan_add_any]))
    · rcases List.mem_cons.mp h with rfl | hx
      · exact ih _ (Or.inl (FVal.add_to_nan acc))
      · exact ih _ (Or.inr hx)

/-- Claim C1: for every payout matrix (nonempty, as the input contract
requires), every iteration count, every batch size and every nonempty
enabled-column list, `monte_carlo_sum` succeeds and returns an array of
length exactly `iteration`; each entry is the sum of the `batch` payouts
selected in that run, where a batch of `batch` rows is drawn with
replacement from the matrix (so `batch` may exceed the row count) and one
enabled column is chosen per drawn row; `iteration = 0` yields the empty
distribution, not an error. -/
theorem monte_carlo_sum_spec {α : Type} [Zero α] [Add α] (g : PRNG)
    (data : List (List α)) (I B : Nat) (cols : List Nat) (σ : Nat)
    (hd : data ≠ []) (hc : cols ≠ []) :
    ∃ res σ', monte_carlo_sum g data I B cols σ = .ok (res, σ') ∧
      res.length = I ∧ (I = 0 → res = []) ∧
      ∀ x ∈ res, ∃ σa rows σb vec σc,
        select_random_row g data B σa = .ok (rows, σb) ∧
        rows.length = B ∧ (∀ r ∈ rows, r ∈ data) ∧
        select_random_col g rows cols σb = .ok (vec, σc) ∧
        vec.length = B ∧ x = fsum vec := by
  obtain ⟨res, σ', h1, h2, h3⟩ :=
    mcLoop_spec g data B cols hd hc I (g.seedFn 12345)
  refine ⟨res, σ', ?_, h2, ?_, h3⟩
  · rw [monte_carlo_sum_natCast]
    exact h1
  · intro h0
    rw [h0] at h2
    exact List.length_eq_zero.mp h2

theorem monte_carlo_sum_spec_witness :
    ([[(1 : ℚ), 2, 3], [4, 5, 6]] : List (List ℚ)) ≠ [] ∧
    ([0, 1, 2] : List Nat) ≠ [] ∧
    (∃ res σ', monte_carlo_sum natPRNG [[(1 : ℚ), 2, 3], [4, 5, 6]] 2 3
        [0, 1, 2] 7 = .ok (res, σ') ∧
      res.length = 2 ∧ (2 = 0 → res = []) ∧
      ∀ x ∈ res, ∃ σa rows σb vec σc,
        select_random_row natPRNG [[(1 : ℚ), 2, 3], [4, 5, 6]] 3 σa =
          .ok (rows, σb) ∧
        rows.length = 3 ∧
        (∀ r ∈ rows, r ∈ ([[(1 : ℚ), 2, 3], [4, 5, 6]] : List (List ℚ))) ∧
        select_random_col natPRNG rows [0, 1, 2] σb = .ok (vec, σc) ∧
        vec.length = 3 ∧ x = fsum vec) :=
  ⟨by simp, by simp,
    monte_carlo_sum_spec natPRNG [[(1 : ℚ), 2, 3], [4, 5, 6]] 2 3 [0, 1, 2] 7
      (by simp) (by simp)⟩

/-- Claim C2: two calls of `monte_carlo_sum` with identical matrix,
iteration count, batch size and enabled columns return identical output
(both the profit array and the final stream state), regardless of the
global stream state before each call: the unconditional reseed at entry
makes the whole call deterministic. -/
theorem monte_carlo_sum_deterministic {α : Type} [Zero α] [Add α]
    (g : PRNG) (data : List (List α)) (I B : Nat) (cols : List Nat)
    (σ1 σ2 : Nat) :
    monte_carlo_sum g data I B cols σ1 =
      monte_carlo_sum g data I B cols σ2 := rfl

/-- Claim C10: `monte_carlo_sum` takes no seed argument and reseeds the
shared generator with the hard-coded constant 12345 at entry, so the call
equals the fixed-seed iteration loop whatever state comes in, and both the
returned profit array and the generator state at return are equal for any
two prior states of the stream. -/
theorem monte_carlo_sum_reseed_const {α : Type} [Zero α] [Add α]
    (g : PRNG) (data : List (List α)) (I B : Nat) (cols : List Nat)
    (σ1 σ2 : Nat) :
    monte_carlo_sum g data I B cols σ1 =
      mcLoop g data B cols I (g.seedFn 12345) ∧
    monte_carlo_sum g data I B cols σ1 =
      monte_carlo_sum g data I B cols σ2 :=
  ⟨monte_carlo_sum_natCast g data I B cols σ1, rfl⟩

/-- Claim C5 counterexample: the input with a zero-row matrix, iteration
count 0 and an empty enabled-column list — invalid on all three counts
according to the claim — does not fail at all: `monte_carlo_sum` returns
the empty distribution successfully. -/
theorem invalid_input_not_rejected :
    monte_carlo_sum natPRNG ([] : List (List ℚ)) 0 5 [] 0 =
      .ok ([], 12345) := rfl

/-- Claim C5, amended: no typed `InvalidArgument` error exists and no
up-front validation is performed; errors are the untyped failures of the
numpy primitives at the point where they are actually exercised.  A
negative iteration count fails at output allocation; requesting at least
one row from a zero-row matrix, or one column choice from an empty
enabled-column set, fails inside the sampler; but an iteration count of 0
returns the empty distribution, a batch size of 0 returns all-zero
profits, zero draws from an empty population succeed with an empty
result, and an out-of-range enabled column is never validated (any
nonempty column list makes `select_random_col` succeed). -/
theorem invalid_inputs_behavior :
    (∀ (g : PRNG) (data : List (List ℚ)) (B : Nat) (cols : List Nat)
        (σ : Nat), monte_carlo_sum g data (-1) B cols σ = .error ()) ∧
    (∀ (g : PRNG) (data : List (List ℚ)) (B : Nat) (cols : List Nat)
        (σ : Nat), monte_carlo_sum g data 0 B cols σ =
          .ok ([], g.seedFn 12345)) ∧
    (∀ (g : PRNG) (data : List (List ℚ)) (cols : List Nat) (σ : Nat),
        monte_carlo_sum g data 1 0 cols σ = .ok ([0], g.seedFn 12345)) ∧
    (∀ (g : PRNG) (n σ : Nat), n ≠ 0 →
        select_random_row g ([] : List (List ℚ)) n σ = .error ()) ∧
    (∀ (g : PRNG) (σ : Nat),
        select_random_row g ([] : List (List ℚ)) 0 σ = .ok ([], σ)) ∧
    (∀ (g : PRNG) (data : List (List ℚ)) (σ : Nat), data ≠ [] →
        select_random_col g data ([] : List Nat) σ = .error ()) ∧
    (∀ (g : PRNG) (σ : Nat),
        select_random_col g ([] : List (List ℚ)) ([] : List Nat) σ =
          .ok ([], σ)) ∧
    (∀ (g : PRNG) (data : List (List ℚ)) (cols : List Nat) (σ : Nat),
        cols ≠ [] →
        ∃ v σ', select_random_col g data cols σ = .ok (v, σ')) := by
  refine ⟨?_, ?_, ?_, ?_, ?_, ?_, ?_, ?_⟩
  · intro g data B cols σ; rfl
  · intro g data B cols σ; rfl
  · intro g data cols σ
    have e : monte_carlo_sum g data 1 0 cols σ =
        mcLoop g data 0 cols 1 (g.seedFn 12345) :=
      monte_carlo_sum_natCast g data 1 0 cols σ
    rw [e]
    have h1 : select_random_row g data 0 (g.seedFn 12345) =
        .ok ([], g.seedFn 12345) := by
      simp [select_random_row, draws]
    have h2 : select_random_col g ([] : List (List ℚ)) cols
        (g.seedFn 12345) = .ok ([], g.seedFn 12345) :=
      select_random_col_empty_rows g cols (g.seedFn 12345)
    simp [mcLoop, h1, h2, fsum]
  · intro g n σ hn; simp [select_random_row, hn]
  · intro g σ; rfl
  · intro g data σ hd; simp [select_random_col, List.length_eq_zero, hd]
  · intro g σ; exact select_random_col_empty_rows g [] σ
  · intro g data cols σ hc
    obtain ⟨v, σ', h, _⟩ := select_random_col_spec g data cols σ hc
    exact ⟨v, σ', h⟩

theorem invalid_inputs_behavior_witness :
    monte_carlo_sum natPRNG [[(1 : ℚ), 2]] (-1) 4 [0] 9 = .error () ∧
    monte_carlo_sum natPRNG [[(1 : ℚ), 2]] 0 4 [0] 9 = .ok ([], 12345) ∧
    monte_carlo_sum natPRNG [[(1 : ℚ), 2]] 1 0 [0] 9 = .ok ([0], 12345) ∧
    ((3 : Nat) ≠ 0 ∧
      select_random_row natPRNG ([] : List (List ℚ)) 3 0 = .error ()) ∧
    select_random_row natPRNG ([] : List (List ℚ)) 0 7 = .ok ([], 7) ∧
    (([[(1 : ℚ), 2]] : List (List ℚ)) ≠ [] ∧
      select_random_col natPRNG [[(1 : ℚ), 2]] ([] : List Nat) 0 =
        .error ()) ∧
    select_random_col natPRNG ([] : List (List ℚ)) ([] : List Nat) 4 =
      .ok ([], 4) ∧
    (([5] : List Nat) ≠ [] ∧
      ∃ v σ', select_random_col natPRNG [[(1 : ℚ), 2]] [5] 0 =
        .ok (v, σ')) := by
  obtain ⟨h1, h2, h3, h4, h5, h6, h7, h8⟩ := invalid_inputs_behavior
  exact ⟨h1 natPRNG [[(1 : ℚ), 2]] 4 [0] 9,
    h2 natPRNG [[(1 : ℚ), 2]] 4 [0] 9,
    h3 natPRNG [[(1 : ℚ), 2]] [0] 9,
    ⟨by simp, h4 natPRNG 3 0 (by simp)⟩,
    h5 natPRNG 7,
    ⟨by simp, h6 natPRNG [[(1 : ℚ), 2]] 0 (by simp)⟩,
    h7 natPRNG 4,
    by simp, h8 natPRNG [[(1 : ℚ), 2]] [5] 0 (by simp)⟩

/-- Claim C6 counterexample: with a `nan` payout cell in the matrix, the
engine does not fail with any error: it returns successfully and the
corrupted value reaches the returned sums. -/
theorem nan_not_rejected :
    monte_carlo_sum natPRNG [[FVal.nan]] 1 1 [0] 0 =
      .ok ([FVal.nan], 12347) := rfl

/-- Claim C6, amended: no finiteness check exists.  On any nonempty matrix
and nonempty enabled-column list the engine returns successfully — also
when payout cells are non-finite — and a `nan` among the selected payouts
of a run makes that run's returned sum `nan` (silent propagation). -/
theorem nan_propagates :
    (∀ (g : PRNG) (data : List (List FVal)) (I B : Nat) (cols : List Nat)
        (σ : Nat), data ≠ [] → cols ≠ [] →
        ∃ res σ', monte_carlo_sum g data I B cols σ = .ok (res, σ')) ∧
    (∀ l : List FVal, FVal.nan ∈ l → fsum l = FVal.nan) := by
  constructor
  · intro g data I B cols σ hd hc
    obtain ⟨res, σ', h1, _, _⟩ :=
      mcLoop_spec g data B cols hd hc I (g.seedFn 12345)
    exact ⟨res, σ', by rw [monte_carlo_sum_natCast]; exact h1⟩
  · intro l hl
    simpa [fsum] using foldl_add_nan l 0 (Or.inr hl)

theorem nan_propagates_witness :
    (([[FVal.nan]] : List (List FVal)) ≠ [] ∧ ([0] : List Nat) ≠ [] ∧
      ∃ res σ', monte_carlo_sum natPRNG [[FVal.nan]] 2 1 [0] 0 =
        .ok (res, σ')) ∧
    (FVal.nan ∈ [FVal.fin 1, FVal.nan] ∧
      fsum [FVal.fin 1, FVal.nan] = FVal.nan) :=
  ⟨⟨by simp, by simp,
     nan_propagates.1 natPRNG [[FVal.nan]] 2 1 [0] 0 (by simp) (by simp)⟩,
   ⟨by simp, nan_propagates.2 [FVal.fin 1, FVal.nan] (by simp)⟩⟩

theorem zip_replicate_map {α β γ : Type} (f : α × β → γ) (b : β) :
    ∀ l : List α,
      (l.zip (List.replicate l.length b)).map f = l.map (fun x => f (x, b)) := by
  intro l
  induction l with
  | nil => rfl
  | cons x xs ih => simp [List.replicate_succ, ih]

theorem select_random_col_singleton {α : Type} [Zero α] (g : PRNG)
    (rows : List (List α)) (k σ : Nat) :
    select_random_col g rows [k] σ =
      .ok (rows.map (fun r => r.getD k 0), (draws g 1 rows.length σ).2) := by
  rw [select_random_col_eq g rows [k] σ (by simp)]
  have hl : ([k] : List Nat).length = 1 := rfl
  rw [hl, draws_one, zip_replicate_map]
  simp

/-- Claim C7: with a singleton enabled-column list `[k]`, column selection
degenerates to deterministic extraction of column `k` — the returned
payout vector does not depend on the values drawn from the stream — and
each terminal profit of `monte_carlo_sum` is the sum of exactly `batch`
column-`k` values at the sampled rows. -/
theorem singleton_col_spec {α : Type} [Zero α] [Add α] :
    (∀ (g : PRNG) (rows : List (List α)) (k σ : Nat),
        select_random_col g rows [k] σ =
          .ok (rows.map (fun r => r.getD k 0),
               (draws g 1 rows.length σ).2)) ∧
    (∀ (g : PRNG) (data : List (List α)) (I B k σ : Nat), data ≠ [] →
        ∃ res σ', monte_carlo_sum g data I B [k] σ = .ok (res, σ') ∧
          res.length = I ∧
          ∀ x ∈ res, ∃ rows : List (List α), rows.length = B ∧
            (∀ r ∈ rows, r ∈ data) ∧
            x = fsum (rows.map (fun r => r.getD k 0))) := by
  constructor
  · intro g rows k σ
    exact select_random_col_singleton g rows k σ
  · intro g data I B k σ hd
    obtain ⟨res, σ', h1, h2, h3⟩ :=
      mcLoop_spec g data B [k] hd (by simp) I (g.seedFn 12345)
    refine ⟨res, σ', by rw [monte_carlo_sum_natCast]; exact h1, h2, ?_⟩
    intro x hx
    obtain ⟨σa, rows, σb, vec, σc, _, hlen, hmem, hcol, _, hx'⟩ := h3 x hx
    have hsing := select_random_col_singleton g rows k σb
    rw [hcol] at hsing
    have hvec : vec = rows.map (fun r => r.getD k 0) := by
      simp only [Except.ok.injEq, Prod.mk.injEq] at hsing
      exact hsing.1
    exact ⟨rows, hlen, hmem, by rw [hx', hvec]⟩

theorem singleton_col_spec_witness :
    select_random_col natPRNG [[(1 : ℚ), 2, 3]] [1] 5 =
      .ok ([[(1 : ℚ), 2, 3]].map (fun r => r.getD 1 0),
           (draws natPRNG 1 1 5).2) ∧
    (([[(1 : ℚ), 2, 3], [4, 5, 6]] : List (List ℚ)) ≠ [] ∧
      ∃ res σ', monte_carlo_sum natPRNG [[(1 : ℚ), 2, 3], [4, 5, 6]] 3 2
          [1] 0 = .ok (res, σ') ∧
        res.length = 3 ∧
        ∀ x ∈ res, ∃ rows : List (List ℚ), rows.length = 2 ∧
          (∀ r ∈ rows, r ∈ ([[(1 : ℚ), 2, 3], [4, 5, 6]] : List (List ℚ))) ∧
          x = fsum (rows.map (fun r => r.getD 1 0))) :=
  ⟨(@singleton_col_spec ℚ _ _).1 natPRNG [[(1 : ℚ), 2, 3]] 1 5,
   by simp,
   (@singleton_col_spec ℚ _ _).2 natPRNG [[(1 : ℚ), 2, 3], [4, 5, 6]] 3 2 1 0
     (by simp)⟩

theorem getLast_map_opt {α β : Type} (f : α → β) :
    ∀ l : List α, (l.map f).getLast? = Option.map f l.getLast? := by
  intro l
  induction l with
  | nil => rfl
  | cons x xs ih =>
    cases xs with
    | nil => rfl
    | cons y ys =>
      simp only [List.map_cons, List.getLast?_cons_cons]
      simpa using ih

theorem cumsumFrom_getLast {α : Type} [Add α] :
    ∀ (l : List α) (acc : α), l ≠ [] →
      (cumsumFrom acc l).getLast? =
        some (l.foldl (fun a b => a + b) acc) := by
  intro l
  induction l with
  | nil => intro acc h; exact absurd rfl h
  | cons x xs ih =>
    intro acc _
    cases xs with
    | nil => rfl
    | cons y ys =>
      have step : cumsumFrom acc (x :: y :: ys) =
          (acc + x) :: cumsumFrom (acc + x) (y :: ys) := rfl
      rw [step]
      have h2 : cumsumFrom (acc + x) (y :: ys) =
          ((acc + x) + y) :: cumsumFrom ((acc + x) + y) ys := rfl
      rw [h2, List.getLast?_cons_cons, ← h2]
      rw [ih (acc + x) (by simp)]
      rfl

theorem cumsum_getLast {α : Type} [Zero α] [Add α] (l : List α)
    (hl : l ≠ []) : (cumsum l).getLast? = some (fsum l) :=
  cumsumFrom_getLast l 0 hl

theorem timeseries_arr_spec {α : Type} [Zero α] [Add α] (g : PRNG)
    (data : List (List α)) (B : Nat) (initB : α) (hd : data ≠ []) :
    ∀ (I σ : Nat), ∃ mat σ',
      timeseries_arr g data B initB I σ = .ok (mat, σ') ∧
      mat.length = I ∧
      ∀ row ∈ mat, ∃ σa rows σb vec σc,
        select_random_row g data B σa = .ok (rows, σb) ∧
        rows.length = B ∧
        select_random_col g rows [0, 1, 2] σb = .ok (vec, σc) ∧
        vec.length = B ∧
        row = (cumsum vec).map (fun x => initB + x) ∧
        mcLoop g data B [0, 1, 2] 1 σa = .ok ([fsum vec], σc) ∧
        (0 < B → row.getLast? = some (initB + fsum vec)) := by
  intro I
  induction I with
  | zero => intro σ; exact ⟨[], σ, rfl, rfl, by simp⟩
  | succ I ih =>
    intro σ
    obtain ⟨rows, σb, hrow, hlen, _⟩ := select_random_row_spec g data B σ hd
    obtain ⟨vec, σc, hcol, hveclen⟩ :=
      select_random_col_spec g rows [0, 1, 2] σb (by simp)
    obtain ⟨mat, σ', hrec, hmatlen, hmat⟩ := ih σc
    have hveclenB : vec.length = B := by rw [hveclen, hlen]
    have hrowval : timeseries_row g data B initB σ =
        .ok ((cumsum vec).map (fun x => initB + x), σc) := by
      simp only [timeseries_row, hrow, hcol]
    refine ⟨(cumsum vec).map (fun x => initB + x) :: mat, σ', ?_,
      by simp [hmatlen], ?_⟩
    · simp only [timeseries_arr, hrowval, hrec]
    · intro row hrowmem
      rcases List.mem_cons.mp hrowmem with rfl | hrowmem
      · refine ⟨σ, rows, σb, vec, σc, hrow, hlen, hcol, hveclenB, rfl, ?_, ?_⟩
        · simp only [mcLoop, hrow, hcol]
        · intro hB
          have hvne : vec ≠ [] := by
            intro h
            rw [h] at hveclenB
            simp at hveclenB
            omega
          rw [getLast_map_opt, cumsum_getLast vec hvne]
          rfl
      · exact hmat row hrowmem

/-- Claim C3: every row of the trajectory output is `initialBalance` plus
the inclusive running cumulative sum of that run's selected payout vector;
for the same row and column draws (identical stream position `σa`), the
last element of a trajectory row minus `initialBalance` is exactly the
profit the terminal engine loop produces for a single run with batch size
`numBets`, and a one-iteration `monte_carlo_sum` call is that loop started
at the hard-coded seed state. -/
theorem timeseries_consistency {α : Type} [Zero α] [Add α] (g : PRNG)
    (data : List (List α)) (I B : Nat) (initB : α) (σ : Nat)
    (hd : data ≠ []) :
    ∃ mat σ', timeseries_arr g data B initB I σ = .ok (mat, σ') ∧
      mat.length = I ∧
      (∀ σx : Nat, monte_carlo_sum g data 1 B [0, 1, 2] σx =
        mcLoop g data B [0, 1, 2] 1 (g.seedFn 12345)) ∧
      ∀ row ∈ mat, ∃ σa rows σb vec σc,
        select_random_row g data B σa = .ok (rows, σb) ∧
        select_random_col g rows [0, 1, 2] σb = .ok (vec, σc) ∧
        row = (cumsum vec).map (fun x => initB + x) ∧
        mcLoop g data B [0, 1, 2] 1 σa = .ok ([fsum vec], σc) ∧
        (0 < B → row.getLast? = some (initB + fsum vec)) := by
  obtain ⟨mat, σ', h1, h2, h3⟩ := timeseries_arr_spec g data B initB hd I σ
  refine ⟨mat, σ', h1, h2, fun σx => rfl, ?_⟩
  intro row hrow
  obtain ⟨σa, rows, σb, vec, σc, ha, _, hb, _, hc1, hc2, hc3⟩ := h3 row hrow
  exact ⟨σa, rows, σb, vec, σc, ha, hb, hc1, hc2, hc3⟩

theorem timeseries_consistency_witness :
    ([[(1 : ℚ), 2, 3], [4, 5, 6]] : List (List ℚ)) ≠ [] ∧
    (∃ mat σ', timeseries_arr natPRNG [[(1 : ℚ), 2, 3], [4, 5, 6]] 2
        (100 : ℚ) 2 11 = .ok (mat, σ') ∧
      mat.length = 2 ∧
      (∀ σx : Nat, monte_carlo_sum natPRNG [[(1 : ℚ), 2, 3], [4, 5, 6]] 1 2
          [0, 1, 2] σx =
        mcLoop natPRNG [[(1 : ℚ), 2, 3], [4, 5, 6]] 2 [0, 1, 2] 1
          (natPRNG.seedFn 12345)) ∧
      ∀ row ∈ mat, ∃ σa rows σb vec σc,
        select_random_row natPRNG [[(1 : ℚ), 2, 3], [4, 5, 6]] 2 σa =
          .ok (rows, σb) ∧
        select_random_col natPRNG rows [0, 1, 2] σb = .ok (vec, σc) ∧
        row = (cumsum vec).map (fun x => (100 : ℚ) + x) ∧
        mcLoop natPRNG [[(1 : ℚ), 2, 3], [4, 5, 6]] 2 [0, 1, 2] 1 σa =
          .ok ([fsum vec], σc) ∧
        (0 < 2 → row.getLast? = some ((100 : ℚ) + fsum vec))) :=
  ⟨by simp,
   timeseries_consistency natPRNG [[(1 : ℚ), 2, 3], [4, 5, 6]] 2 2 (100 : ℚ)
     11 (by simp)⟩

theorem getD_eq_get_of_lt {α : Type} :
    ∀ (l : List α) (i : Nat) (h : i < l.length) (d : α),
      l.getD i d = l.get ⟨i, h⟩ := by
  intro l
  induction l with
  | nil => intro i h d; simp at h
  | cons x xs ih =>
    intro i h d
    cases i with
    | zero => rfl
    | succ i =>
      simp only [List.getD_cons_succ]
      exact ih i (by simpa using h) d

theorem getD_default_of_le {α : Type} :
    ∀ (l : List α) (i : Nat), l.length ≤ i → ∀ d : α, l.getD i d = d := by
  intro l
  induction l with
  | nil => intro i _ d; cases i <;> rfl
  | cons x xs ih =>
    intro i h d
    cases i with
    | zero => simp at h
    | succ i =>
      simp only [List.getD_cons_succ]
      exact ih i (by simpa using h) d

theorem sorted_getD_mono (s : List ℚ)
    (hs : List.Sorted (fun a b : ℚ => a ≤ b) s) (a b : Nat) (hab : a ≤ b)
    (hb : b < s.length) (d1 d2 : ℚ) : s.getD a d1 ≤ s.getD b d2 := by
  have ha : a < s.length := lt_of_le_of_lt hab hb
  rw [getD_eq_get_of_lt s a ha d1, getD_eq_get_of_lt s b hb d2]
  exact hs.rel_get_of_le (Fin.mk_le_mk.mpr hab)

theorem interpAt_eq (s : List ℚ) (h : ℚ) :
    interpAt s h = s.getD (Int.floor h).toNat 0 +
      (h - ((Int.floor h).toNat : ℚ)) *
      (s.getD ((Int.floor h).toNat + 1) (s.getD (Int.floor h).toNat 0) -
        s.getD (Int.floor h).toNat 0) := rfl

theorem interpAt_mono (s : List ℚ)
    (hs : List.Sorted (fun a b : ℚ => a ≤ b) s) (h1 h2 : ℚ) (h0 : 0 ≤ h1)
    (h12 : h1 ≤ h2) (htop : h2 ≤ (s.length : ℚ) - 1) :
    interpAt s h1 ≤ interpAt s h2 := by
  have h02 : 0 ≤ h2 := le_trans h0 h12
  have hf1 : 0 ≤ Int.floor h1 := Int.floor_nonneg.mpr h0
  have hf2 : 0 ≤ Int.floor h2 := Int.floor_nonneg.mpr h02
  have hcast1 : (((Int.floor h1).toNat : ℕ) : ℚ) = (Int.floor h1 : ℚ) := by
    exact_mod_cast congrArg (fun z : ℤ => (z : ℚ)) (Int.toNat_of_nonneg hf1)
  have hcast2 : (((Int.floor h2).toNat : ℕ) : ℚ) = (Int.floor h2 : ℚ) := by
    exact_mod_cast congrArg (fun z : ℤ => (z : ℚ)) (Int.toNat_of_nonneg hf2)
  have hle1 : (((Int.floor h1).toNat : ℕ) : ℚ) ≤ h1 := by
    rw [hcast1]; exact Int.floor_le h1
  have hle2 : (((Int.floor h2).toNat : ℕ) : ℚ) ≤ h2 := by
    rw [hcast2]; exact Int.floor_le h2
  have hlt1 : h1 < (((Int.floor h1).toNat : ℕ) : ℚ) + 1 := by
    rw [hcast1]; exact Int.lt_floor_add_one h1
  have hi12 : (Int.floor h1).toNat ≤ (Int.floor h2).toNat :=
    Int.toNat_le_toNat (Int.floor_mono h12)
  have hi2n : (Int.floor h2).toNat < s.length := by
    have hfle : Int.floor h2 ≤ (s.length : ℤ) - 1 := by
      have hstep : Int.floor h2 ≤ Int.floor ((s.length : ℚ) - 1) :=
        Int.floor_mono htop
      have hval : Int.floor ((s.length : ℚ) - 1) = (s.length : ℤ) - 1 := by
        have : ((s.length : ℚ) - 1) = (((s.length : ℤ) - 1 : ℤ) : ℚ) := by
          push_cast; ring
        rw [this, Int.floor_intCast]
      rw [hval] at hstep
      exact hstep
    have hlen1 : 1 ≤ s.length := by
      by_contra hcon
      have hzero : s.length = 0 := by omega
      rw [hzero] at hfle
      have : (0 : ℤ) ≤ Int.floor h2 := hf2
      omega
    have : ((Int.floor h2).toNat : ℤ) ≤ (s.length : ℤ) - 1 := by
      rw [Int.toNat_of_nonneg hf2]; exact hfle
    omega
  have hi1n : (Int.floor h1).toNat < s.length := lt_of_le_of_lt hi12 hi2n
  rw [interpAt_eq, interpAt_eq]
  rcases Nat.lt_or_ge (Int.floor h1).toNat (Int.floor h2).toNat with hlt | hge
  · -- strictly smaller floor: chain through the order statistics
    have hn11 : (Int.floor h1).toNat + 1 < s.length := by omega
    have hd1 : s.getD (Int.floor h1).toNat 0 ≤
        s.getD ((Int.floor h1).toNat + 1) (s.getD (Int.floor h1).toNat 0) :=
      sorted_getD_mono s hs _ _ (by omega) hn11 _ _
    have hmid : s.getD ((Int.floor h1).toNat + 1)
          (s.getD (Int.floor h1).toNat 0) ≤ s.getD (Int.floor h2).toNat 0 :=
      sorted_getD_mono s hs _ _ (by omega) hi2n _ _
    have hd2 : s.getD (Int.floor h2).toNat 0 ≤
        s.getD ((Int.floor h2).toNat + 1) (s.getD (Int.floor h2).toNat 0) := by
      rcases Nat.lt_or_ge ((Int.floor h2).toNat + 1) s.length with hc | hc
      · exact sorted_getD_mono s hs _ _ (by omega) hc _ _
      · rw [getD_default_of_le s _ hc]
    have key1 : s.getD (Int.floor h1).toNat 0 +
        (h1 - (((Int.floor h1).toNat : ℕ) : ℚ)) *
        (s.getD ((Int.floor h1).toNat + 1) (s.getD (Int.floor h1).toNat 0) -
          s.getD (Int.floor h1).toNat 0) ≤
        s.getD ((Int.floor h1).toNat + 1) (s.getD (Int.floor h1).toNat 0) := by
      nlinarith [mul_nonneg
        (by linarith : (0 : ℚ) ≤ 1 - (h1 - (((Int.floor h1).toNat : ℕ) : ℚ)))
        (by linarith : (0 : ℚ) ≤
          s.getD ((Int.floor h1).toNat + 1) (s.getD (Int.floor h1).toNat 0) -
            s.getD (Int.floor h1).toNat 0)]
    have key2 : s.getD (Int.floor h2).toNat 0 ≤
        s.getD (Int.floor h2).toNat 0 +
        (h2 - (((Int.floor h2).toNat : ℕ) : ℚ)) *
        (s.getD ((Int.floor h2).toNat + 1) (s.getD (Int.floor h2).toNat 0) -
          s.getD (Int.floor h2).toNat 0) := by
      nlinarith [mul_nonneg (by linarith : (0 : ℚ) ≤
          h2 - (((Int.floor h2).toNat : ℕ) : ℚ))
        (by linarith : (0 : ℚ) ≤
          s.getD ((Int.floor h2).toNat + 1) (s.getD (Int.floor h2).toNat 0) -
            s.getD (Int.floor h2).toNat 0)]
    linarith
  · -- equal floors: the shared segment is affine with nonnegative slope
    have heq : (Int.floor h1).toNat = (Int.floor h2).toNat :=
      le_antisymm hi12 hge
    rw [heq]
    have hd : s.getD (Int.floor h2).toNat 0 ≤
        s.getD ((Int.floor h2).toNat + 1) (s.getD (Int.floor h2).toNat 0) := by
      rcases Nat.lt_or_ge ((Int.floor h2).toNat + 1) s.length with hc | hc
      · exact sorted_getD_mono s hs _ _ (by omega) hc _ _
      · rw [getD_default_of_le s _ hc]
    have hfr : h1 ≤ h2 := h12
    nlinarith [mul_nonneg (by linarith : (0 : ℚ) ≤ h2 - h1)
      (by linarith : (0 : ℚ) ≤
        s.getD ((Int.floor h2).toNat + 1) (s.getD (Int.floor h2).toNat 0) -
          s.getD (Int.floor h2).toNat 0), heq, hcast1, hcast2]

theorem sortAsc_sorted (l : List ℚ) :
    List.Sorted (fun a b : ℚ => a ≤ b) (sortAsc l) :=
  List.sorted_insertionSort _ l

theorem sortAsc_length (l : List ℚ) : (sortAsc l).length = l.length :=
  (List.perm_insertionSort _ l).length_eq

theorem percentile_mono (l : List ℚ) (hl : l ≠ []) (p1 p2 : ℚ)
    (h0 : 0 ≤ p1) (h12 : p1 ≤ p2) (h100 : p2 ≤ 100) :
    percentile l p1 ≤ percentile l p2 := by
  have hn : 0 < l.length := List.length_pos.mpr hl
  have hnq : (1 : ℚ) ≤ (l.length : ℚ) := by exact_mod_cast hn
  have hc : (0 : ℚ) ≤ (l.length : ℚ) - 1 := by linarith
  have hm := mul_le_mul_of_nonneg_right h12 hc
  have hm2 := mul_le_mul_of_nonneg_right h100 hc
  show interpAt (sortAsc l) (p1 * ((l.length : ℚ) - 1) / 100) ≤
    interpAt (sortAsc l) (p2 * ((l.length : ℚ) - 1) / 100)
  apply interpAt_mono (sortAsc l) (sortAsc_sorted l)
  · exact div_nonneg (mul_nonneg h0 hc) (by norm_num)
  · linarith
  · rw [sortAsc_length]
    linarith

/-- Claim C4: for every trajectory matrix (with nonempty time-step
columns) and percentile ranks `p1 ≤ p2` in `[0, 100]`, the quantile
aggregation gives, at every time step, a `p1` value that never exceeds the
`p2` value: the output is monotonically non-decreasing in the percentile
rank. -/
theorem quantiles_monotone (mat : List (List ℚ)) (p1 p2 : ℚ)
    (h0 : 0 ≤ p1) (h12 : p1 ≤ p2) (h100 : p2 ≤ 100)
    (hcols : ∀ col ∈ mat.transpose, col ≠ []) :
    List.Forall₂ (fun a b : ℚ => a ≤ b)
      ((quantiles mat [p1, p2]).getD 0 [])
      ((quantiles mat [p1, p2]).getD 1 []) := by
  have hq : quantiles mat [p1, p2] =
      [mat.transpose.map (fun col => percentile col p1),
       mat.transpose.map (fun col => percentile col p2)] := rfl
  rw [hq]
  simp only [List.getD_cons_zero, List.getD_cons_succ]
  revert hcols
  generalize mat.transpose = L
  intro hcols
  induction L with
  | nil => exact List.Forall₂.nil
  | cons c cs ih =>
    simp only [List.map_cons]
    exact List.Forall₂.cons
      (percentile_mono c (hcols c (by simp)) p1 p2 h0 h12 h100)
      (ih (fun col hc => hcols col (by simp [hc])))

theorem quantiles_monotone_witness :
    (0 : ℚ) ≤ 1 ∧ (1 : ℚ) ≤ 50 ∧ (50 : ℚ) ≤ 100 ∧
    (∀ col ∈ ([[(1 : ℚ), 2], [3, 4]] : List (List ℚ)).transpose, col ≠ []) ∧
    List.Forall₂ (fun a b : ℚ => a ≤ b)
      ((quantiles [[(1 : ℚ), 2], [3, 4]] [1, 50]).getD 0 [])
      ((quantiles [[(1 : ℚ), 2], [3, 4]] [1, 50]).getD 1 []) :=
  ⟨by norm_num, by norm_num, by norm_num, by decide,
   quantiles_monotone [[(1 : ℚ), 2], [3, 4]] 1 50 (by norm_num) (by norm_num)
     (by norm_num) (by decide)⟩

/-- Claim C9: the quantile computation evaluates each requested percentile
by rank-based linear interpolation between the order statistics of the
column (sorted permutation of the sample, value read at fractional rank
`p * (n - 1) / 100`); it is not a nearest-rank rule: the interpolated
median of `[0, 10]` is `5`, which is not an element of the sample, while
the nearest-rank rule returns the order statistic `0`. -/
theorem percentile_linear_interpolation :
    (∀ (l : List ℚ) (p : ℚ),
        (sortAsc l).Perm l ∧
        List.Sorted (fun a b : ℚ => a ≤ b) (sortAsc l) ∧
        percentile l p =
          interpAt (sortAsc l) (p * ((l.length : ℚ) - 1) / 100)) ∧
    percentile [0, 10] 50 = 5 ∧
    nearestRank [0, 10] 50 = 0 ∧
    percentile [0, 10] 50 ∉ ([0, 10] : List ℚ) := by
  have h5 : percentile [0, 10] 50 = 5 := by
    norm_num [percentile, interpAt, sortAsc, List.insertionSort,
      List.orderedInsert, List.getD_cons_zero, List.getD_cons_succ]
  have hnr : nearestRank [0, 10] 50 = 0 := by
    norm_num [nearestRank, sortAsc, List.insertionSort, List.orderedInsert,
      List.getD_cons_zero, List.getD_cons_succ]
  refine ⟨fun l p =>
    ⟨List.perm_insertionSort _ l, sortAsc_sorted l, rfl⟩, h5, hnr, ?_⟩
  rw [h5]
  norm_num

/-- Claim C8: in the constructed payout matrix, every row built from a
match whose winner code is one of the three outcome codes has exactly one
column — the column of the match result — holding the win value
`stake * (odds - 1)`, while all other columns hold `-stake`. -/
theorem mkPayoutMatrix_row_structure (stake : ℚ) (ms : List MatchRow)
    (hw : ∀ m ∈ ms, m.winner = "1" ∨ m.winner = "X" ∨ m.winner = "2") :
    ∀ row ∈ mkPayoutMatrix stake ms, row.length = 3 ∧ ∃ m ∈ ms,
      row = mkPayoutRow stake m ∧ ∃ k, k < 3 ∧
        (["1", "X", "2"] : List String).getD k "" = m.winner ∧
        row.getD k 0 = stake * ([m.odds1, m.oddsX, m.odds2].getD k 0 - 1) ∧
        ∀ j, j < 3 → j ≠ k → row.getD j 0 = -stake := by
  intro row hrow
  simp only [mkPayoutMatrix, List.mem_map] at hrow
  obtain ⟨m, hm, rfl⟩ := hrow
  refine ⟨rfl, m, hm, rfl, ?_⟩
  rcases hw m hm with hcase | hcase | hcase
  · refine ⟨0, by norm_num, by simp [hcase], by simp [mkPayoutRow, hcase], ?_⟩
    intro j hj hne
    interval_cases j
    · exact absurd rfl hne
    · simp [mkPayoutRow, hcase]
    · simp [mkPayoutRow, hcase]
  · refine ⟨1, by norm_num, by simp [hcase], by simp [mkPayoutRow, hcase], ?_⟩
    intro j hj hne
    interval_cases j
    · simp [mkPayoutRow, hcase]
    · exact absurd rfl hne
    · simp [mkPayoutRow, hcase]
  · refine ⟨2, by norm_num, by simp [hcase], by simp [mkPayoutRow, hcase], ?_⟩
    intro j hj hne
    interval_cases j
    · simp [mkPayoutRow, hcase]
    · simp [mkPayoutRow, hcase]
    · exact absurd rfl hne

theorem mkPayoutMatrix_row_structure_witness :
    (∀ m ∈ [MatchRow.mk "X" 2 3 4],
        m.winner = "1" ∨ m.winner = "X" ∨ m.winner = "2") ∧
    ∀ row ∈ mkPayoutMatrix 10 [MatchRow.mk "X" 2 3 4],
      row.length = 3 ∧ ∃ m ∈ [MatchRow.mk "X" 2 3 4],
        row = mkPayoutRow 10 m ∧ ∃ k, k < 3 ∧
          (["1", "X", "2"] : List String).getD k "" = m.winner ∧
          row.getD k 0 = 10 * ([m.odds1, m.oddsX, m.odds2].getD k 0 - 1) ∧
          ∀ j, j < 3 → j ≠ k → row.getD j 0 = -10 :=
  ⟨by simp, mkPayoutMatrix_row_structure 10 [MatchRow.mk "X" 2 3 4]
    (by simp)⟩

end Sportsbetting
